import Mathlib

/-!
Shallow embedding of the Geometry toolkit (RectangularMatrix.hpp, Vector.hpp,
Point.hpp, Polyline.hpp) and proofs about its specified behaviour.

Modelling conventions:
* C++ `double` is idealised as `ℝ`; `size_t` as `ℕ` (all index arithmetic in
  the translated code stays in range, and where the C++ would wrap —
  `columns - 1` for a zero-column matrix — the wrapped value trips the very
  same bounds check that `Nat` truncated subtraction trips, which we verify
  at the use site).
* A heap array of length `capacity` is a `List` of that length; writing a
  block of elements at an offset (`std::copy` / `std::move` into a buffer)
  is `listWrite`.  The element moves performed by the polyline are moves of
  trivially-copyable data, hence modelled as copies.  `new Point<T,3>[n]`
  value-initialises to zero matrices; the `char` buffer's slack holds an
  indeterminate value which we fix as the blank character (it is never
  observable through the public interface).
* Functions that can throw return `Except GeomErr`.
* `std::reduce` with the polyline's non-commutative scorer is executed
  sequentially by the implementation; it is modelled as the left fold the
  code performs.
-/

/-- Errors surfaced by the component, per the error taxonomy. -/
inductive GeomErr where
  | outOfRange
  | invalidArgument
  | allocationFailure
deriving DecidableEq

/-- Write the block `src` into the buffer `buf` starting at offset `i`
(the effect of `std::copy(src.begin(), src.end(), buf + i)` when
`i + src.length ≤ buf.length`). -/
def listWrite {α : Type} (buf : List α) (i : Nat) (src : List α) : List α :=
  buf.take i ++ src ++ buf.drop (i + src.length)

/-! ## RectangularMatrix

`RectangularMatrix<T, rows, columns>` stores `rows * columns` elements of `T`
contiguously in row-major order (`std::array<T, rows*columns>`); `mdspan`
indexing at `(i, j)` reads linear position `i * columns + j`. -/

/-- A `rows × columns` matrix: the row-major element list with its length. -/
structure Mat (α : Type) (r c : Nat) where
  data : List α
  hlen : data.length = r * c

/-- Element at linear (row-major) position `k`; out-of-range reads (never
performed by in-contract code) give `0`. -/
def Mat.el {α : Type} [Zero α] {r c : Nat} (m : Mat α r c) (k : Nat) : α :=
  m.data.getD k 0

/-- Default constructor `RectangularMatrix() : data{}` — all elements zero. -/
def matZero (α : Type) [Zero α] (r c : Nat) : Mat α r c :=
  ⟨List.replicate (r * c) 0, by simp⟩

/-- Iterator-range constructor: `dist > rows * columns` throws
`std::invalid_argument`; otherwise the range is copied to the front and the
remainder is zero-filled. -/
def ofListE {α : Type} [Zero α] (r c : Nat) (l : List α) :
    Except GeomErr (Mat α r c) :=
  if h : r * c < l.length then .error .invalidArgument
  else .ok ⟨l ++ List.replicate (r * c - l.length) 0, by
    simp only [List.length_append, List.length_replicate]; omega⟩

/-- Bounds-checked element access `at(i, j)`: throws `std::out_of_range`
when `i >= rows || j >= columns`, else reads the row-major element. -/
def Mat.atE {α : Type} [Zero α] {r c : Nat} (m : Mat α r c) (i j : Nat) :
    Except GeomErr α :=
  if r ≤ i ∨ c ≤ j then .error .outOfRange else .ok (m.el (i * c + j))

/-- `operator+`: element-wise `std::transform` with `std::plus`. -/
def matAdd {α : Type} [Add α] {r c : Nat} (a b : Mat α r c) : Mat α r c :=
  ⟨List.zipWith (· + ·) a.data b.data, by
    simp [List.length_zipWith, a.hlen, b.hlen]⟩

/-- `operator-`: element-wise `std::transform` with `std::minus`. -/
def matSub {α : Type} [Sub α] {r c : Nat} (a b : Mat α r c) : Mat α r c :=
  ⟨List.zipWith (· - ·) a.data b.data, by
    simp [List.length_zipWith, a.hlen, b.hlen]⟩

/-- The element sequence produced by walking a matrix with its column
iterator from `column_cbegin(0)` to `column_cend(columns-1)`: position
`number = k` dereferences to `data[(k % rows) * columns + k / rows]`. -/
def transposeCore {α : Type} [Zero α] {r c : Nat} (m : Mat α r c) :
    Mat α c r :=
  ⟨(List.range (c * r)).map (fun k => m.el ((k % r) * c + k / r)), by simp⟩

/-- `transposed()`: feeds the column-major walk into the `columns × rows`
iterator-range constructor.  `column_cbegin(0)` (and, for `columns = 0`,
`column_cend(columns - 1)` whose `size_t` argument wraps) throw
`std::out_of_range` exactly when `columns = 0`; otherwise the walk has
exactly `rows * columns` elements so the constructor cannot throw. -/
def transposedE {α : Type} [Zero α] {r c : Nat} (m : Mat α r c) :
    Except GeomErr (Mat α c r) :=
  if c = 0 then .error .outOfRange else .ok (transposeCore m)

/-- `operator*`: result element at linear position `k` (row `k / d`,
column `k % d`) is the `transform_reduce` of row `k / d` of `a` against
column `k % d` of `b`. -/
def matMul {α : Type} [NonUnitalNonAssocSemiring α] {r c d : Nat}
    (a : Mat α r c) (b : Mat α c d) : Mat α r d :=
  ⟨(List.range (r * d)).map (fun k =>
      ∑ t ∈ Finset.range c, a.el ((k / d) * c + t) * b.el (t * d + k % d)),
    by simp⟩

/-! ## Vector / Point

`Point<T, n>` is an alias for `RectangularMatrix<T, 1, n>`; `Vector<T, n>`
wraps one.  Linear index `k` is coordinate `k` (`at(0, k)`). -/

/-- `Vector(from, to)`: member initialiser `data(from - to)`. -/
def vecOfPoints {α : Type} [Sub α] {n : Nat} (a b : Mat α 1 n) : Mat α 1 n :=
  matSub a b

/-- `length()`: `sqrt((data * data.transposed()).at(0, 0))`.  The transpose
walk and the `at(0, 0)` read (the product is 1×1) are modelled by their
values; `vecLengthE` below accounts for the bounds checks. -/
noncomputable def vecLength {n : Nat} (v : Mat ℝ 1 n) : ℝ :=
  Real.sqrt ((matMul v (transposeCore v)).el 0)

/-- `length()` with its internal bounds checks: `transposed()` throws for a
zero-dimensional vector, and the result is read through `at(0, 0)`. -/
noncomputable def vecLengthE {n : Nat} (v : Mat ℝ 1 n) : Except GeomErr ℝ :=
  match transposedE v with
  | .error e => .error e
  | .ok vt => ((matMul v vt).atE 0 0).map Real.sqrt

/-- `normalize()`: when the length is zero, return the default-constructed
(all-zero) vector; otherwise divide every component by the length. -/
noncomputable def vecNormalize {n : Nat} (v : Mat ℝ 1 n) : Mat ℝ 1 n :=
  if vecLength v = 0 then matZero ℝ 1 n
  else ⟨v.data.map (fun x => x / vecLength v), by simp [v.hlen]⟩

/-- `normalize()` with the error behaviour of its internal `length()` call
made explicit. -/
noncomputable def vecNormalizeE {n : Nat} (v : Mat ℝ 1 n) :
    Except GeomErr (Mat ℝ 1 n) :=
  (vecLengthE v).map (fun len =>
    if len = 0 then matZero ℝ 1 n
    else ⟨v.data.map (fun x => x / len), by simp [v.hlen]⟩)

/-! ## Polyline -/

/-- 3D points, as stored by `Polyline<T>` (with `T` idealised as `ℝ`). -/
abbrev P3 := Mat ℝ 1 3

/-- The value a freshly value-initialised `Point<T, 3>` holds. -/
def p3zero : P3 := matZero ℝ 1 3

/-- Stand-in for the indeterminate contents of fresh `char` storage. -/
def blank : Char := Char.ofNat 32

/-- `Polyline<T>`: two parallel heap buffers of common length `capacity`,
of which the first `size` entries are live. -/
structure Polyline where
  points : List P3
  names : List Char
  capacity : Nat
  size : Nat

/-- The class invariant: both buffers have length `capacity` and at most
`capacity` entries are live. -/
def Wf (p : Polyline) : Prop :=
  p.points.length = p.capacity ∧ p.names.length = p.capacity ∧
    p.size ≤ p.capacity

/-- The live point sequence `[begin(), end())`. -/
def livePts (p : Polyline) : List P3 := p.points.take p.size

/-- The live label sequence `[names_begin(), names_end())`. -/
def liveNms (p : Polyline) : List Char := p.names.take p.size

/-- `reallocate(new_capacity)`, successful path: allocate both buffers,
copy the live prefixes across, free the old buffers, install the new ones.
No-op when the capacity already matches. -/
def reallocate (p : Polyline) (newCap : Nat) : Polyline :=
  if p.capacity = newCap then p
  else
    { points := livePts p ++ List.replicate (newCap - p.size) p3zero,
      names := liveNms p ++ List.replicate (newCap - p.size) blank,
      capacity := newCap, size := p.size }

/-- `reallocate(new_capacity)` with the allocation outcome of each `new[]`
explicit.  If either allocation throws `std::bad_alloc`, the catch block
frees whatever was obtained and rethrows before any member is assigned, so
the object is returned unchanged together with the propagated error. -/
def reallocRun (p : Polyline) (newCap : Nat) (okPoints okNames : Bool) :
    Polyline × Option GeomErr :=
  if p.capacity = newCap then (p, none)
  else if okPoints && okNames then (reallocate p newCap, none)
  else (p, some .allocationFailure)

/-- Write `point` and `name` at position `size` of the (possibly regrown)
buffers and bump `size` — the unconditional tail of `add_point`. -/
def pushBack (p1 : Polyline) (pt : P3) (c : Char) : Polyline :=
  { points := listWrite p1.points p1.size [pt],
    names := listWrite p1.names p1.size [c],
    capacity := p1.capacity, size := p1.size + 1 }

/-- `add_point(point, name)`: grow by the fixed increment `buffsize = 5`
when full, then write both entries at position `size` and bump `size`. -/
def addPoint (p : Polyline) (pt : P3) (c : Char) : Polyline :=
  pushBack (if p.size = p.capacity then reallocate p (p.capacity + 5) else p)
    pt c

/-- The common unconditional tail of the merges: copy `q`'s live ranges
into `p1`'s buffers starting at position `sz` (the merging object's point
count, where its `end()` / `names_end()` point) and set the combined
size. -/
def mergeTail (p1 : Polyline) (sz : Nat) (q : Polyline) : Polyline :=
  { points := listWrite p1.points sz (livePts q),
    names := listWrite p1.names sz (liveNms q),
    capacity := p1.capacity, size := sz + q.size }

/-- `merge_line(const Polyline&)`: early-out on an empty source; grow to
`capacity + other.size` when headroom is short; copy the source's live
ranges to `end()` / `names_end()` and bump `size`. -/
def mergeCopy (p q : Polyline) : Polyline :=
  if q.size = 0 then p
  else mergeTail
    (if p.capacity < p.size + q.size then
      reallocate p (p.capacity + q.size) else p) p.size q

/-- `merge_line(Polyline&&)`: the three capacity regimes.  Branch 1 moves
the source's live ranges into this buffer's tail.  Branch 2 shifts the
source's live ranges right by `size` inside the source's own buffers
(`std::move_backward`, which is overlap-safe in that direction), moves this
object's live ranges into the freed front, swaps the two objects' members,
and bumps `size` — after the swap the merged buffers are `this` and the
source ends up holding exactly this object's former members.  Branch 3
reallocates to the combined size and moves the source's ranges in.  The
second component is the state `other` is left in. -/
def mergeMove (p q : Polyline) : Polyline × Polyline :=
  if q.size = 0 then (p, q)
  else if p.size + q.size ≤ p.capacity then
    (mergeTail p p.size q, q)
  else if p.size + q.size ≤ q.capacity then
    ({ points := listWrite (listWrite q.points p.size (livePts q)) 0 (livePts p),
       names := listWrite (listWrite q.names p.size (liveNms q)) 0 (liveNms p),
       capacity := q.capacity, size := q.size + p.size }, p)
  else
    (mergeTail (reallocate p (p.size + q.size)) p.size q, q)

/-- `merge_line(const Polyline&)` called with `*this` as the argument: the
execution with both references aliased.  A needed `reallocate` runs first
and preserves the live prefix; the subsequent `std::copy` then reads
`[begin(), begin() + size)` of the (possibly new) buffer and writes the
disjoint range starting at `end()`. -/
def mergeSelf (p : Polyline) : Polyline :=
  if p.size = 0 then p
  else mergeTail
    (if p.capacity < p.size + p.size then
      reallocate p (p.capacity + p.size) else p) p.size
    (if p.capacity < p.size + p.size then
      reallocate p (p.capacity + p.size) else p)

/-- `shift(diff)`: `std::transform` over the live points, adding
`diff.get_data()` to each. -/
def shiftLine (p : Polyline) (diff : Mat ℝ 1 3) : Polyline :=
  { p with
    points := listWrite p.points 0 ((livePts p).map (fun a => matAdd a diff)) }

/-- The Rodrigues rotation matrix built by `rotate(axis, rad)` from the
normalised axis components (division by a zero length is left to the
ambient arithmetic, as in the source). -/
noncomputable def rotMatrix (axis : Mat ℝ 1 3) (rad : ℝ) : Mat ℝ 3 3 :=
  let len := vecLength axis
  let x := axis.el 0 / len
  let y := axis.el 1 / len
  let z := axis.el 2 / len
  let co := Real.cos rad
  let si := Real.sin rad
  ⟨[co + x * x * (1 - co), y * x * (1 - co) + z * si, z * x * (1 - co) - y * si,
    x * y * (1 - co) - z * si, co + y * y * (1 - co), z * y * (1 - co) + x * si,
    x * z * (1 - co) + y * si, y * z * (1 - co) - x * si, co + z * z * (1 - co)],
   rfl⟩

/-- `rotate(axis, rad)`: `std::transform` over the live points,
right-multiplying each by the rotation matrix. -/
noncomputable def rotateLine (p : Polyline) (axis : Mat ℝ 1 3) (rad : ℝ) :
    Polyline :=
  { p with
    points := listWrite p.points 0
      ((livePts p).map (fun pt => matMul pt (rotMatrix axis rad))) }

/-- Distance between two stored points: `Vector<T,3>(a, b).length()`. -/
noncomputable def dist3 (a b : P3) : ℝ := vecLength (vecOfPoints a b)

/-- Read of `points[i]` during the scan (always in range in-contract). -/
def pget (l : List P3) (i : Nat) : P3 := l.getD i p3zero

/-- The `dist` the reduction lambda computes for the interior point at
index `i`: `min(Vector(points[i-1], points[i]).length(),
Vector(points[i], points[i+1]).length())`. -/
noncomputable def interiorScore (pts : List P3) (i : Nat) : ℝ :=
  min (dist3 (pget pts (i - 1)) (pget pts i))
      (dist3 (pget pts i) (pget pts (i + 1)))

/-- The accumulator update of the reduction lambda: keep the candidate `i`
only when its score strictly beats the running best. -/
noncomputable def selStep (d : Nat → ℝ) (acc : ℝ × Nat) (i : Nat) :
    ℝ × Nat :=
  if acc.1 < d i then (d i, i) else acc

/-- The reduction lambda of `remove_most_isolated_point`. -/
noncomputable def isoStep (pts : List P3) : (ℝ × Nat) → Nat → ℝ × Nat :=
  selStep (interiorScore pts)

/-- The `std::reduce` over `[begin() + 1, end() - 1)` (interior indices
`1 … size - 2`) from the initial accumulator `{0, 0}`. -/
noncomputable def interiorScan (p : Polyline) : ℝ × Nat :=
  ((List.range (p.size - 2)).map (fun j => j + 1)).foldl (isoStep p.points)
    (0, 0)

/-- `len1`: the distance from `points[0]` to `points[1]`. -/
noncomputable def endLen1 (p : Polyline) : ℝ :=
  dist3 (pget p.points 0) (pget p.points 1)

/-- `len2`: the distance from `points[size-2]` to `points[size-1]`. -/
noncomputable def endLen2 (p : Polyline) : ℝ :=
  dist3 (pget p.points (p.size - 2)) (pget p.points (p.size - 1))

/-- `dist` after the `if (len1 > dist)` update. -/
noncomputable def distAfter1 (p : Polyline) : ℝ :=
  if (interiorScan p).1 < endLen1 p then endLen1 p else (interiorScan p).1

/-- `index` after the `if (len1 > dist)` update. -/
noncomputable def idxAfter1 (p : Polyline) : Nat :=
  if (interiorScan p).1 < endLen1 p then 0 else (interiorScan p).2

/-- `index` after the `if (len2 > dist)` update: the index that gets
removed. -/
noncomputable def chosenIndex (p : Polyline) : Nat :=
  if distAfter1 p < endLen2 p then p.size - 1 else idxAfter1 p

/-- `dist` after the `if (len2 > dist)` update. -/
noncomputable def chosenDist (p : Polyline) : ℝ :=
  if distAfter1 p < endLen2 p then endLen2 p else distAfter1 p

/-- Shift the live suffix after index `ix` left by one in both buffers
(the two `std::copy` calls towards the front, which are overlap-safe) and
decrement `size`. -/
def eraseAt (p : Polyline) (ix : Nat) : Polyline :=
  { points := listWrite p.points ix
      ((p.points.drop (ix + 1)).take (p.size - (ix + 1))),
    names := listWrite p.names ix
      ((p.names.drop (ix + 1)).take (p.size - (ix + 1))),
    capacity := p.capacity, size := p.size - 1 }

/-- `remove_most_isolated_point()`: no-op for `size <= 2`; otherwise erase
the point at the chosen index. -/
noncomputable def removeMostIsolatedPoint (p : Polyline) : Polyline :=
  if p.size ≤ 2 then p else eraseAt p (chosenIndex p)

/-- `get_point_name(index)`: throws `std::out_of_range` when
`index >= size`, else reads `names[index]`. -/
def getPointNameE (p : Polyline) (i : Nat) : Except GeomErr Char :=
  if p.size ≤ i then .error .outOfRange else .ok (p.names.getD i blank)

/-- A default-constructed `Polyline`. -/
def polyDefault : Polyline := ⟨[], [], 0, 0⟩

/-- The copy constructor: start from the default state; when the source is
non-empty, `reallocate(other.size)` and copy both live ranges across. -/
def copyCtor (q : Polyline) : Polyline :=
  if 0 < q.size then
    let p1 := reallocate polyDefault q.size
    { points := listWrite p1.points 0 (livePts q),
      names := listWrite p1.names 0 (liveNms q),
      capacity := p1.capacity, size := q.size }
  else polyDefault

/-- The move constructor: swap with a default-constructed object.  First
component: the constructed object; second: what the source becomes. -/
def moveCtor (q : Polyline) : Polyline × Polyline := (q, polyDefault)

/-- Copy assignment (copy-and-swap): the assigned-to object's new state. -/
def copyAssign (_p q : Polyline) : Polyline := copyCtor q

/-- Move assignment (swap): (assigned-to object, moved-from source). -/
def moveAssign (p q : Polyline) : Polyline × Polyline := (q, p)

/-- Isolation score of point `i`, as the spec defines it: endpoint scores
are their single neighbour distance, interior scores the minimum of the two
neighbour distances.  (For `3 ≤ size` these are exactly the quantities
`len1`, `len2` and the reduction lambda's `dist` in the source.) -/
noncomputable def scoreAt (p : Polyline) (i : Nat) : ℝ :=
  if i = 0 then endLen1 p
  else if i = p.size - 1 then endLen2 p
  else min (dist3 (pget p.points (i - 1)) (pget p.points i))
           (dist3 (pget p.points i) (pget p.points (i + 1)))

/-! ## Concrete fixtures used by witnesses and counterexamples -/

/-- The point (0, 0, 0). -/
def ptA : P3 := ⟨[0, 0, 0], rfl⟩

/-- The point (1, 0, 0). -/
def ptB : P3 := ⟨[1, 0, 0], rfl⟩

/-- The point (2, 0, 0). -/
def ptC : P3 := ⟨[2, 0, 0], rfl⟩

/-- Label for `ptA`. -/
def chA : Char := Char.ofNat 97

/-- Label for `ptB`. -/
def chB : Char := Char.ofNat 98

/-- Label for `ptC`. -/
def chC : Char := Char.ofNat 99

/-- A three-point polyline with equally spaced collinear points. -/
def pEx : Polyline := ⟨[ptA, ptB, ptC], [chA, chB, chC], 3, 3⟩

/-- A one-point polyline. -/
def qEx : Polyline := ⟨[ptB], [chB], 1, 1⟩

/-- A concrete 2×3 integer matrix. -/
def mEx : Mat ℤ 2 3 := ⟨[1, 2, 3, 4, 5, 6], rfl⟩

/-- The (unique) 1×0 matrix: a constructible degenerate dimension. -/
def mDeg : Mat ℤ 1 0 := ⟨[], rfl⟩

/-- The (unique) 0-dimensional real vector: `Vector<T, 0>` is
constructible, with an empty component matrix. -/
def vDeg : Mat ℝ 1 0 := ⟨[], rfl⟩

/-! # Theorems -/

theorem Mat.ext {α : Type} {r c : Nat} {m m' : Mat α r c}
    (h : m.data = m'.data) : m = m' := by
  cases m; cases m'; simp_all

theorem listWrite_length {α : Type} {buf src : List α} {i : Nat}
    (h : i + src.length ≤ buf.length) :
    (listWrite buf i src).length = buf.length := by
  simp only [listWrite, List.length_append, List.length_take, List.length_drop]
  omega

theorem listWrite_take_add {α : Type} {buf src : List α} {i : Nat}
    (h : i ≤ buf.length) :
    (listWrite buf i src).take (i + src.length) = buf.take i ++ src := by
  have hlen : ((buf.take i) ++ src).length = i + src.length := by
    simp only [List.length_append, List.length_take]; omega
  rw [listWrite, List.append_assoc, ← List.append_assoc,
    List.take_left' hlen]

theorem listWrite_take_of_le {α : Type} {buf src : List α} {i k : Nat}
    (h : k ≤ i) (hi : i ≤ buf.length) :
    (listWrite buf i src).take k = buf.take k := by
  have h1 : k ≤ (buf.take i).length := by
    simp only [List.length_take]; omega
  rw [listWrite, List.append_assoc, List.take_append_of_le_length h1,
    List.take_take, Nat.min_eq_left h]

theorem listWrite_zero_take {α : Type} (buf src : List α) (m : Nat) :
    (listWrite buf 0 src).take (src.length + m)
      = src ++ (buf.drop src.length).take m := by
  simp only [listWrite, Nat.zero_add, List.take_nil, List.nil_append,
    List.take_zero]
  exact List.take_append m

theorem getD_map_range {α : Type} (f : Nat → α) (n k : Nat) (d : α) :
    ((List.range n).map f).getD k d = if k < n then f k else d := by
  rcases Nat.lt_or_ge k n with h | h
  · rw [List.getD_eq_getElem _ _ (by simpa using h)]
    simp [h]
  · rw [List.getD_eq_default _ _ (by simpa using h)]
    rw [if_neg (Nat.not_lt.2 h)]

theorem transposeCore_el {α : Type} [Zero α] {r c : Nat} (m : Mat α r c)
    (k : Nat) (hk : k < c * r) :
    (transposeCore m).el k = m.el ((k % r) * c + k / r) := by
  simp [transposeCore, Mat.el, getD_map_range, hk]

theorem lin_idx_lt {i j r c : Nat} (hi : i < r) (hj : j < c) :
    i * c + j < r * c := by
  calc i * c + j < i * c + c := by omega
    _ = (i + 1) * c := by ring
    _ ≤ r * c := Nat.mul_le_mul_right c (by omega)

theorem transposeCore_transposeCore {α : Type} [Zero α] {r c : Nat}
    (m : Mat α r c) : transposeCore (transposeCore m) = m := by
  apply Mat.ext
  apply List.ext_getElem
  · rw [(transposeCore (transposeCore m)).hlen, m.hlen]
  · intro i h1 h2
    have hic : i < r * c := by rw [m.hlen] at h2; exact h2
    have hrc : 0 < r * c := Nat.lt_of_le_of_lt (Nat.zero_le i) hic
    have hr : 0 < r := by
      rcases Nat.eq_zero_or_pos r with h | h
      · subst h; simp at hrc
      · exact h
    have hc : 0 < c := by
      rcases Nat.eq_zero_or_pos c with h | h
      · subst h; simp at hrc
      · exact h
    have h4 : i % c < c := Nat.mod_lt _ hc
    have h5 : i / c < r := (Nat.div_lt_iff_lt_mul hc).2 hic
    have hdata : (transposeCore (transposeCore m)).data
        = (List.range (r * c)).map
            (fun k => (transposeCore m).el ((k % c) * r + k / c)) := rfl
    simp only [hdata, List.getElem_map, List.getElem_range]
    have h3 : (i % c) * r + i / c < c * r := lin_idx_lt h4 h5
    rw [transposeCore_el m _ h3]
    have hjr : ((i % c) * r + i / c) % r = i / c := by
      rw [Nat.add_comm, Nat.add_mul_mod_self_right, Nat.mod_eq_of_lt h5]
    have hjd : ((i % c) * r + i / c) / r = i % c := by
      rw [Nat.add_comm, Nat.add_mul_div_right _ _ hr, Nat.div_eq_of_lt h5,
        Nat.zero_add]
    rw [hjr, hjd]
    have hi' : (i / c) * c + i % c = i := by
      rw [Nat.mul_comm]; exact Nat.div_add_mod i c
    rw [hi', Mat.el, List.getD_eq_getElem _ _ (by rw [m.hlen]; exact hic)]

/-- Claim C7 (amended): for every matrix with at least one row and one
column, `transposed` succeeds, is an involution, and re-indexes by
`transposed(M)[j, i] = M[i, j]`. -/
theorem transposed_involution {α : Type} [Zero α] {r c : Nat}
    (m : Mat α r c) (hr : 0 < r) (hc : 0 < c) :
    ∃ mt : Mat α c r, transposedE m = Except.ok mt ∧
      transposedE mt = Except.ok m ∧
      ∀ i j, i < r → j < c → mt.atE j i = m.atE i j := by
  refine ⟨transposeCore m, ?_, ?_, ?_⟩
  · rw [transposedE, if_neg (Nat.pos_iff_ne_zero.mp hc)]
  · rw [transposedE, if_neg (Nat.pos_iff_ne_zero.mp hr),
      transposeCore_transposeCore]
  · intro i j hi hj
    rw [Mat.atE, Mat.atE, if_neg (by omega), if_neg (by omega)]
    have hk : j * r + i < c * r := lin_idx_lt hj hi
    rw [transposeCore_el m _ hk]
    have h1 : (j * r + i) % r = i := by
      rw [Nat.add_comm, Nat.add_mul_mod_self_right, Nat.mod_eq_of_lt hi]
    have h2 : (j * r + i) / r = j := by
      rw [Nat.add_comm, Nat.add_mul_div_right _ _ hr, Nat.div_eq_of_lt hi,
        Nat.zero_add]
    rw [h1, h2]

/-- Claim C7 witness: the amended involution applied to a concrete 2×3
integer matrix. -/
theorem transposed_involution_witness :
    (0 : Nat) < 2 ∧ (0 : Nat) < 3 ∧
      ∃ mt : Mat ℤ 3 2, transposedE mEx = Except.ok mt ∧
        transposedE mt = Except.ok mEx ∧
        ∀ i j, i < 2 → j < 3 → mt.atE j i = mEx.atE i j :=
  ⟨by decide, by decide, transposed_involution mEx (by decide) (by decide)⟩

/-- Claim C7 counterexample: a 1×0 matrix is constructible, but
`transposed()` on it throws `std::out_of_range` (the `size_t` argument
`columns - 1` wraps and fails the column-index bound check), so the claimed
involution on matrices of *any* dimensions fails at this input. -/
theorem transposed_involution_cex :
    transposedE mDeg = Except.error GeomErr.outOfRange ∧
      (transposedE mDeg).bind transposedE ≠ Except.ok mDeg := by
  constructor
  · rfl
  · intro h
    rw [transposedE] at h
    simp only [if_pos rfl] at h
    exact absurd h (by simp [Except.bind])

/-- Claim C5: `at(i, j)` signals `OutOfRange` exactly when `i ≥ rows` or
`j ≥ columns` and otherwise returns the stored row-major element, and
`get_point_name(index)` signals `OutOfRange` exactly when `index ≥ size`
and otherwise returns the stored label; both checks happen synchronously
before any element access. -/
theorem at_get_point_name_bounds {α : Type} [Zero α] {r c : Nat}
    (m : Mat α r c) (p : Polyline) (i j k : Nat) :
    (m.atE i j = Except.error GeomErr.outOfRange ↔ r ≤ i ∨ c ≤ j) ∧
    (i < r → j < c → m.atE i j = Except.ok (m.el (i * c + j))) ∧
    (getPointNameE p k = Except.error GeomErr.outOfRange ↔ p.size ≤ k) ∧
    (k < p.size → getPointNameE p k = Except.ok (p.names.getD k blank)) := by
  refine ⟨⟨?_, ?_⟩, ?_, ⟨?_, ?_⟩, ?_⟩
  · intro h
    by_contra hbad
    rw [Mat.atE, if_neg hbad] at h
    exact absurd h (by simp)
  · intro h
    rw [Mat.atE, if_pos h]
  · intro hi hj
    rw [Mat.atE, if_neg (by omega)]
  · intro h
    by_contra hbad
    rw [getPointNameE, if_neg hbad] at h
    exact absurd h (by simp)
  · intro h
    rw [getPointNameE, if_pos h]
  · intro h
    rw [getPointNameE, if_neg (by omega)]

/-- Claim C5 witness: concrete in-bounds and out-of-bounds accesses. -/
theorem at_get_point_name_bounds_witness :
    (0 : Nat) < 2 ∧ (1 : Nat) < 3 ∧
      mEx.atE 0 1 = Except.ok (mEx.el 1) ∧
      (mEx.atE 2 0 = Except.error GeomErr.outOfRange ↔
        (2 : Nat) ≤ 2 ∨ (3 : Nat) ≤ 0) := by
  refine ⟨by decide, by decide, ?_, ?_⟩
  · have h := (at_get_point_name_bounds mEx pEx 0 1 0).2.1 (by decide)
      (by decide)
    simpa using h
  · exact (at_get_point_name_bounds mEx pEx 2 0 0).1

/-- Claim C6: constructing a matrix from an ordered sequence fails with
`InvalidArgument` exactly when the sequence is longer than `rows*columns`;
otherwise it succeeds and element `(i, j)` holds the sequence entry at
row-major position `i*columns + j` when the sequence reaches it, and zero
otherwise (so a sequence of exactly `rows*columns` values fills every
element). -/
theorem ofList_rowmajor {α : Type} [Zero α] (r c : Nat) (l : List α) :
    (r * c < l.length → ofListE r c l = Except.error GeomErr.invalidArgument) ∧
    (l.length ≤ r * c → ∃ m : Mat α r c, ofListE r c l = Except.ok m ∧
      ∀ i j, i < r → j < c →
        m.atE i j = Except.ok
          (if i * c + j < l.length then l.getD (i * c + j) 0 else 0)) := by
  constructor
  · intro h
    rw [ofListE, dif_pos h]
  · intro h
    rw [ofListE, dif_neg (Nat.not_lt.2 h)]
    refine ⟨_, rfl, ?_⟩
    intro i j hi hj
    rw [Mat.atE, if_neg (by omega)]
    congr 1
    show (l ++ List.replicate (r * c - l.length) 0).getD (i * c + j) 0 = _
    rcases Nat.lt_or_ge (i * c + j) l.length with hin | hout
    · rw [List.getD_append _ _ _ _ hin, if_pos hin]
    · rw [List.getD_append_right _ _ _ _ hout, if_neg (Nat.not_lt.2 hout)]
      have hlt : i * c + j - l.length < r * c - l.length := by
        have := lin_idx_lt hi hj
        omega
      rw [List.getD_eq_getElem _ _ (by simpa using hlt)]
      exact List.getElem_replicate ..

/-- Claim C6 witness: a 2×3 integer matrix built from a 4-element sequence
is row-major-filled and zero-padded; a 7-element sequence is rejected. -/
theorem ofList_rowmajor_witness :
    (([5, 6, 7, 8] : List ℤ).length ≤ 2 * 3 ∧
      ∃ m : Mat ℤ 2 3, ofListE 2 3 [5, 6, 7, 8] = Except.ok m ∧
        ∀ i j, i < 2 → j < 3 →
          m.atE i j = Except.ok
            (if i * 3 + j < ([5, 6, 7, 8] : List ℤ).length then
              ([5, 6, 7, 8] : List ℤ).getD (i * 3 + j) 0 else 0)) ∧
    (2 * 3 < ([1, 1, 1, 1, 1, 1, 1] : List ℤ).length ∧
      ofListE 2 3 ([1, 1, 1, 1, 1, 1, 1] : List ℤ)
        = Except.error GeomErr.invalidArgument) :=
  ⟨⟨by decide, (ofList_rowmajor 2 3 [5, 6, 7, 8]).2 (by decide)⟩,
   ⟨by decide, (ofList_rowmajor 2 3 [1, 1, 1, 1, 1, 1, 1]).1 (by decide)⟩⟩

/-- Claim C8: the vector constructed from points `(from, to)` has
components `from − to`, in that orientation. -/
theorem vector_from_points_components {α : Type} [Sub α] [Zero α] {n : Nat}
    (a b : Mat α 1 n) (k : Nat) (hk : k < n) :
    (vecOfPoints a b).el k = a.el k - b.el k := by
  have ha : k < a.data.length := by rw [a.hlen]; omega
  have hb : k < b.data.length := by rw [b.hlen]; omega
  have hz : k < (List.zipWith (fun x y => x - y) a.data b.data).length := by
    rw [List.length_zipWith]; omega
  rw [vecOfPoints, matSub, Mat.el, Mat.el, Mat.el]
  show (List.zipWith (fun x y => x - y) a.data b.data).getD k 0 = _
  rw [List.getD_eq_getElem _ _ hz, List.getD_eq_getElem _ _ ha,
    List.getD_eq_getElem _ _ hb]
  exact List.getElem_zipWith ..

/-- Claim C8 witness: the component of a concrete difference vector. -/
theorem vector_from_points_components_witness :
    (0 : Nat) < 3 ∧
      (vecOfPoints (⟨[7, 5, 3], rfl⟩ : Mat ℤ 1 3) ⟨[2, 9, 1], rfl⟩).el 0
        = (⟨[7, 5, 3], rfl⟩ : Mat ℤ 1 3).el 0
            - (⟨[2, 9, 1], rfl⟩ : Mat ℤ 1 3).el 0 :=
  ⟨by decide, vector_from_points_components _ _ 0 (by decide)⟩

theorem listWrite_drop_take {α : Type} {buf src : List α} {i : Nat}
    (h : i + src.length ≤ buf.length) :
    ((listWrite buf i src).drop i).take src.length = src := by
  have h1 : (buf.take i).length = i := by rw [List.length_take]; omega
  rw [listWrite, List.append_assoc, List.drop_left' h1, List.take_left' rfl]

theorem livePts_length {p : Polyline} (h : p.size ≤ p.points.length) :
    (livePts p).length = p.size := by
  rw [livePts, List.length_take]; omega

theorem liveNms_length {p : Polyline} (h : p.size ≤ p.names.length) :
    (liveNms p).length = p.size := by
  rw [liveNms, List.length_take]; omega

theorem reallocate_spec (p : Polyline) (newCap : Nat) (hwf : Wf p)
    (h : p.size ≤ newCap) :
    Wf (reallocate p newCap) ∧ (reallocate p newCap).size = p.size ∧
    livePts (reallocate p newCap) = livePts p ∧
    liveNms (reallocate p newCap) = liveNms p ∧
    (p.capacity ≠ newCap → (reallocate p newCap).capacity = newCap) ∧
    (p.capacity = newCap → reallocate p newCap = p) := by
  obtain ⟨hp1, hp2, hp3⟩ := hwf
  by_cases hcap : p.capacity = newCap
  · rw [reallocate, if_pos hcap]
    exact ⟨⟨hp1, hp2, hp3⟩, rfl, rfl, rfl, fun hne => absurd hcap hne,
      fun _ => rfl⟩
  · rw [reallocate, if_neg hcap]
    have hl1 : (livePts p).length = p.size := livePts_length (by omega)
    have hl2 : (liveNms p).length = p.size := liveNms_length (by omega)
    refine ⟨⟨?_, ?_, ?_⟩, rfl, ?_, ?_, fun _ => rfl, fun hc => absurd hc hcap⟩
    · simp only [List.length_append, List.length_replicate, hl1]; omega
    · simp only [List.length_append, List.length_replicate, hl2]; omega
    · exact h
    · show (livePts p ++ _).take p.size = livePts p
      exact List.take_left' hl1
    · show (liveNms p ++ _).take p.size = liveNms p
      exact List.take_left' hl2

/-- Claim C3: a capacity-growth attempt is atomic under allocation failure.
If either backing allocation fails, an `AllocationFailure` is reported and
the polyline is returned exactly as it was; on success both stores are
installed together (same length, capacity updated), the live contents and
size being preserved. -/
theorem reallocate_atomic (p : Polyline) (newCap : Nat) (okP okN : Bool)
    (hwf : Wf p) (h : p.size ≤ newCap) :
    ((reallocRun p newCap okP okN).2 ≠ none →
      (reallocRun p newCap okP okN).1 = p ∧
      (reallocRun p newCap okP okN).2 = some GeomErr.allocationFailure) ∧
    ((reallocRun p newCap okP okN).2 = none →
      Wf (reallocRun p newCap okP okN).1 ∧
      (reallocRun p newCap okP okN).1.size = p.size ∧
      livePts (reallocRun p newCap okP okN).1 = livePts p ∧
      liveNms (reallocRun p newCap okP okN).1 = liveNms p ∧
      (reallocRun p newCap okP okN).1.points.length
        = (reallocRun p newCap okP okN).1.names.length ∧
      (p.capacity ≠ newCap →
        (reallocRun p newCap okP okN).1.capacity = newCap)) := by
  obtain ⟨hre, hsz, hlp, hln, hne, _⟩ := reallocate_spec p newCap hwf h
  by_cases hcap : p.capacity = newCap
  · rw [reallocRun, if_pos hcap]
    exact ⟨fun hbad => absurd rfl hbad,
      fun _ => ⟨hwf, rfl, rfl, rfl, by
        obtain ⟨h1, h2, _⟩ := hwf
        rw [h1, h2], fun hc => absurd hcap hc⟩⟩
  · rw [reallocRun, if_neg hcap]
    by_cases hok : (okP && okN) = true
    · rw [if_pos hok]
      refine ⟨fun hbad => absurd rfl hbad, fun _ => ⟨hre, hsz, hlp, hln, ?_, hne⟩⟩
      obtain ⟨h1, h2, _⟩ := hre
      rw [h1, h2]
    · rw [if_neg hok]
      exact ⟨fun _ => ⟨rfl, rfl⟩, fun hbad => absurd hbad (by simp)⟩

/-- Claim C3 witness: a failing and a succeeding growth attempt on a
concrete polyline. -/
theorem reallocate_atomic_witness :
    Wf pEx ∧ pEx.size ≤ 7 ∧
      ((reallocRun pEx 7 false true).2 ≠ none →
        (reallocRun pEx 7 false true).1 = pEx ∧
        (reallocRun pEx 7 false true).2 = some GeomErr.allocationFailure) :=
  ⟨⟨by decide, by decide, by decide⟩, by decide,
    (reallocate_atomic pEx 7 false true ⟨by decide, by decide, by decide⟩
      (by decide)).1⟩

theorem mergeTail_spec (p1 q : Polyline) (sz : Nat) (h1 : Wf p1) (hq : Wf q)
    (hcap : sz + q.size ≤ p1.capacity) :
    (mergeTail p1 sz q).size = sz + q.size ∧
    livePts (mergeTail p1 sz q) = p1.points.take sz ++ livePts q ∧
    liveNms (mergeTail p1 sz q) = p1.names.take sz ++ liveNms q ∧
    Wf (mergeTail p1 sz q) := by
  obtain ⟨ha, hb, _⟩ := h1
  obtain ⟨hqa, hqb, hqc⟩ := hq
  have hlq : (livePts q).length = q.size := livePts_length (by omega)
  have hlqn : (liveNms q).length = q.size := liveNms_length (by omega)
  have hwp : sz + (livePts q).length ≤ p1.points.length := by omega
  have hwn : sz + (liveNms q).length ≤ p1.names.length := by omega
  refine ⟨rfl, ?_, ?_, ?_, ?_, ?_⟩
  · show (listWrite p1.points sz (livePts q)).take (sz + q.size) = _
    have h := @listWrite_take_add _ p1.points (livePts q) sz (by omega)
    rw [hlq] at h
    exact h
  · show (listWrite p1.names sz (liveNms q)).take (sz + q.size) = _
    have h := @listWrite_take_add _ p1.names (liveNms q) sz (by omega)
    rw [hlqn] at h
    exact h
  · show (listWrite p1.points sz (livePts q)).length = p1.capacity
    rw [listWrite_length hwp, ha]
  · show (listWrite p1.names sz (liveNms q)).length = p1.capacity
    rw [listWrite_length hwn, hb]
  · exact hcap

theorem livePts_nil {p : Polyline} (h : p.size = 0) : livePts p = [] := by
  rw [livePts, h, List.take_zero]

theorem liveNms_nil {p : Polyline} (h : p.size = 0) : liveNms p = [] := by
  rw [liveNms, h, List.take_zero]

theorem mergeCopy_spec (p q : Polyline) (hp : Wf p) (hq : Wf q) :
    (mergeCopy p q).size = p.size + q.size ∧
    livePts (mergeCopy p q) = livePts p ++ livePts q ∧
    liveNms (mergeCopy p q) = liveNms p ++ liveNms q ∧
    Wf (mergeCopy p q) := by
  by_cases hz : q.size = 0
  · rw [mergeCopy, if_pos hz, livePts_nil hz, liveNms_nil hz,
      List.append_nil, List.append_nil, hz]
    exact ⟨rfl, rfl, rfl, hp⟩
  · rw [mergeCopy, if_neg hz]
    by_cases hg : p.capacity < p.size + q.size
    · rw [if_pos hg]
      obtain ⟨hre, hsz, hlp, hln, hnc, _⟩ :=
        reallocate_spec p (p.capacity + q.size) hp (by
          obtain ⟨_, _, h3⟩ := hp; omega)
      have hcap' : p.size + q.size ≤ (reallocate p (p.capacity + q.size)).capacity := by
        rw [hnc (by omega)]
        obtain ⟨_, _, h3⟩ := hp; omega
      obtain ⟨hs, hl, hn, hw⟩ :=
        mergeTail_spec (reallocate p (p.capacity + q.size)) q p.size hre hq hcap'
      refine ⟨hs, ?_, ?_, hw⟩
      · rw [hl]
        congr 1
        rw [← hsz]
        exact hlp
      · rw [hn]
        congr 1
        rw [← hsz]
        exact hln
    · rw [if_neg hg]
      exact mergeTail_spec p q p.size hp hq (by omega)

theorem mergeMove_spec (p q : Polyline) (hp : Wf p) (hq : Wf q) :
    (mergeMove p q).1.size = p.size + q.size ∧
    livePts (mergeMove p q).1 = livePts p ++ livePts q ∧
    liveNms (mergeMove p q).1 = liveNms p ++ liveNms q ∧
    Wf (mergeMove p q).1 ∧ Wf (mergeMove p q).2 := by
  obtain ⟨hp1, hp2, hp3⟩ := hp
  obtain ⟨hq1, hq2, hq3⟩ := hq
  by_cases hz : q.size = 0
  · rw [mergeMove, if_pos hz]
    rw [livePts_nil hz, liveNms_nil hz, List.append_nil, List.append_nil, hz]
    exact ⟨rfl, rfl, rfl, ⟨hp1, hp2, hp3⟩, ⟨hq1, hq2, hq3⟩⟩
  · rw [mergeMove, if_neg hz]
    by_cases hg1 : p.size + q.size ≤ p.capacity
    · rw [if_pos hg1]
      obtain ⟨hs, hl, hn, hw⟩ :=
        mergeTail_spec p q p.size ⟨hp1, hp2, hp3⟩ ⟨hq1, hq2, hq3⟩ hg1
      exact ⟨hs, hl, hn, hw, ⟨hq1, hq2, hq3⟩⟩
    · rw [if_neg hg1]
      by_cases hg2 : p.size + q.size ≤ q.capacity
      · rw [if_pos hg2]
        have hlp : (livePts p).length = p.size := livePts_length (by omega)
        have hlpn : (liveNms p).length = p.size := liveNms_length (by omega)
        have hlq : (livePts q).length = q.size := livePts_length (by omega)
        have hlqn : (liveNms q).length = q.size := liveNms_length (by omega)
        have hw1 : p.size + (livePts q).length ≤ q.points.length := by omega
        have hw1n : p.size + (liveNms q).length ≤ q.names.length := by omega
        have hlen1 : (listWrite q.points p.size (livePts q)).length
            = q.points.length := listWrite_length hw1
        have hlen1n : (listWrite q.names p.size (liveNms q)).length
            = q.names.length := listWrite_length hw1n
        have hw2 : 0 + (livePts p).length
            ≤ (listWrite q.points p.size (livePts q)).length := by
          rw [hlen1]; omega
        have hw2n : 0 + (liveNms p).length
            ≤ (listWrite q.names p.size (liveNms q)).length := by
          rw [hlen1n]; omega
        refine ⟨by show q.size + p.size = _; omega, ?_, ?_, ⟨?_, ?_, ?_⟩,
          ⟨hp1, hp2, hp3⟩⟩
        · show (listWrite (listWrite q.points p.size (livePts q)) 0
              (livePts p)).take (q.size + p.size) = _
          have hamt : q.size + p.size = (livePts p).length + q.size := by omega
          rw [hamt, listWrite_zero_take]
          congr 1
          rw [hlp]
          have := @listWrite_drop_take _ q.points (livePts q) p.size (by omega)
          rw [hlq] at this
          exact this
        · show (listWrite (listWrite q.names p.size (liveNms q)) 0
              (liveNms p)).take (q.size + p.size) = _
          have hamt : q.size + p.size = (liveNms p).length + q.size := by omega
          rw [hamt, listWrite_zero_take]
          congr 1
          rw [hlpn]
          have := @listWrite_drop_take _ q.names (liveNms q) p.size (by omega)
          rw [hlqn] at this
          exact this
        · show (listWrite (listWrite q.points p.size (livePts q)) 0
              (livePts p)).length = q.capacity
          rw [listWrite_length hw2, hlen1, hq1]
        · show (listWrite (listWrite q.names p.size (liveNms q)) 0
              (liveNms p)).length = q.capacity
          rw [listWrite_length hw2n, hlen1n, hq2]
        · show q.size + p.size ≤ q.capacity
          omega
      · rw [if_neg hg2]
        obtain ⟨hre, hsz, hlpr, hlnr, hnc, _⟩ :=
          reallocate_spec p (p.size + q.size) ⟨hp1, hp2, hp3⟩ (by omega)
        have hcap' : p.size + q.size
            ≤ (reallocate p (p.size + q.size)).capacity := by
          rw [hnc (by omega)]
        obtain ⟨hs, hl, hn, hw⟩ :=
          mergeTail_spec (reallocate p (p.size + q.size)) q p.size hre
            ⟨hq1, hq2, hq3⟩ hcap'
        refine ⟨hs, ?_, ?_, hw, ⟨hq1, hq2, hq3⟩⟩
        · rw [hl]
          congr 1
          simp only [livePts] at hlpr
          rw [hsz] at hlpr
          exact hlpr
        · rw [hn]
          congr 1
          simp only [liveNms] at hlnr
          rw [hsz] at hlnr
          exact hlnr

/-- Claim C1: merging `Q` into `P` — by the copy overload or by the move
overload, in every relative-capacity regime (the definitions branch on all
of them) — leaves `P` with size `P.size + Q.size` and with point and label
sequences equal to `P`'s originals followed by `Q`'s originals in order. -/
theorem merge_line_spec (p q : Polyline) (hp : Wf p) (hq : Wf q) :
    (mergeCopy p q).size = p.size + q.size ∧
    livePts (mergeCopy p q) = livePts p ++ livePts q ∧
    liveNms (mergeCopy p q) = liveNms p ++ liveNms q ∧
    (mergeMove p q).1.size = p.size + q.size ∧
    livePts (mergeMove p q).1 = livePts p ++ livePts q ∧
    liveNms (mergeMove p q).1 = liveNms p ++ liveNms q := by
  obtain ⟨h1, h2, h3, _⟩ := mergeCopy_spec p q hp hq
  obtain ⟨h4, h5, h6, _, _⟩ := mergeMove_spec p q hp hq
  exact ⟨h1, h2, h3, h4, h5, h6⟩

/-- Claim C1 witness: the merge theorem applied to two concrete
polylines. -/
theorem merge_line_spec_witness :
    Wf pEx ∧ Wf qEx ∧
      ((mergeCopy pEx qEx).size = pEx.size + qEx.size ∧
       livePts (mergeCopy pEx qEx) = livePts pEx ++ livePts qEx ∧
       liveNms (mergeCopy pEx qEx) = liveNms pEx ++ liveNms qEx ∧
       (mergeMove pEx qEx).1.size = pEx.size + qEx.size ∧
       livePts (mergeMove pEx qEx).1 = livePts pEx ++ livePts qEx ∧
       liveNms (mergeMove pEx qEx).1 = liveNms pEx ++ liveNms qEx) :=
  ⟨⟨by decide, by decide, by decide⟩, ⟨by decide, by decide, by decide⟩,
    merge_line_spec pEx qEx ⟨by decide, by decide, by decide⟩
      ⟨by decide, by decide, by decide⟩⟩

theorem mergeSelf_eq_mergeCopy (p : Polyline) (hp : Wf p) :
    mergeSelf p = mergeCopy p p := by
  by_cases hz : p.size = 0
  · rw [mergeSelf, if_pos hz, mergeCopy, if_pos hz]
  · rw [mergeSelf, if_neg hz, mergeCopy, if_neg hz]
    have hfacts :
        livePts (if p.capacity < p.size + p.size then
          reallocate p (p.capacity + p.size) else p) = livePts p ∧
        liveNms (if p.capacity < p.size + p.size then
          reallocate p (p.capacity + p.size) else p) = liveNms p ∧
        (if p.capacity < p.size + p.size then
          reallocate p (p.capacity + p.size) else p).size = p.size := by
      by_cases hg : p.capacity < p.size + p.size
      · rw [if_pos hg]
        obtain ⟨_, hsz, hlp, hln, _, _⟩ :=
          reallocate_spec p (p.capacity + p.size) hp (by
            obtain ⟨_, _, h3⟩ := hp; omega)
        exact ⟨hlp, hln, hsz⟩
      · rw [if_neg hg]
        exact ⟨rfl, rfl, rfl⟩
    obtain ⟨hlp, hln, hsz⟩ := hfacts
    rw [mergeTail, mergeTail]
    simp only [livePts, liveNms] at hlp hln ⊢
    rw [hlp, hln, hsz]

/-- Claim C10: self-merge through the copy overload is well-defined under
aliasing: `mergeSelf` follows the aliased execution (reallocation first,
which preserves the live prefix, then a copy of the buffer's own first
`size` entries into the disjoint tail range), and yields size `2 * size`
with the point and label sequences repeated twice in order — the same
result as merging an independent copy. -/
theorem merge_self_aliased (p : Polyline) (hp : Wf p) :
    (mergeSelf p).size = 2 * p.size ∧
    livePts (mergeSelf p) = livePts p ++ livePts p ∧
    liveNms (mergeSelf p) = liveNms p ++ liveNms p ∧
    mergeSelf p = mergeCopy p p := by
  have heq := mergeSelf_eq_mergeCopy p hp
  obtain ⟨hs, hl, hn, _⟩ := mergeCopy_spec p p hp hp
  rw [heq]
  exact ⟨by omega, hl, hn, rfl⟩

/-- Claim C10 witness: the aliased self-merge theorem at a concrete
polyline. -/
theorem merge_self_aliased_witness :
    Wf pEx ∧
      ((mergeSelf pEx).size = 2 * pEx.size ∧
       livePts (mergeSelf pEx) = livePts pEx ++ livePts pEx ∧
       liveNms (mergeSelf pEx) = liveNms pEx ++ liveNms pEx ∧
       mergeSelf pEx = mergeCopy pEx pEx) :=
  ⟨⟨by decide, by decide, by decide⟩,
    merge_self_aliased pEx ⟨by decide, by decide, by decide⟩⟩

theorem selStep_fst_le (d : Nat → ℝ) (acc : ℝ × Nat) (i : Nat) :
    acc.1 ≤ (selStep d acc i).1 := by
  rw [selStep]
  split
  · exact le_of_lt (by assumption)
  · exact le_refl _

theorem foldSel_fst_mono (d : Nat → ℝ) (l : List Nat) (acc : ℝ × Nat) :
    acc.1 ≤ (l.foldl (selStep d) acc).1 := by
  induction l generalizing acc with
  | nil => exact le_refl _
  | cons x xs ih =>
    simp only [List.foldl_cons]
    exact le_trans (selStep_fst_le d acc x) (ih _)

theorem foldSel_le (d : Nat → ℝ) (l : List Nat) (acc : ℝ × Nat) :
    ∀ i ∈ l, d i ≤ (l.foldl (selStep d) acc).1 := by
  induction l generalizing acc with
  | nil => intro i h; exact absurd h (List.not_mem_nil i)
  | cons x xs ih =>
    intro i hi
    simp only [List.foldl_cons]
    rcases List.mem_cons.mp hi with h | h
    · subst h
      refine le_trans ?_ (foldSel_fst_mono d xs (selStep d acc i))
      rw [selStep]
      split
      · exact le_refl _
      · exact not_lt.mp (by assumption)
    · exact ih _ i h

theorem foldSel_mem (d : Nat → ℝ) (l : List Nat) (acc : ℝ × Nat) :
    l.foldl (selStep d) acc = acc ∨
    ((l.foldl (selStep d) acc).2 ∈ l ∧
      (l.foldl (selStep d) acc).1 = d (l.foldl (selStep d) acc).2) := by
  induction l generalizing acc with
  | nil => left; rfl
  | cons x xs ih =>
    simp only [List.foldl_cons]
    rcases ih (selStep d acc x) with h | h
    · rw [h, selStep]
      split
      · right
        exact ⟨List.mem_cons_self x xs, rfl⟩
      · left; rfl
    · right
      exact ⟨List.mem_cons_of_mem _ h.1, h.2⟩

theorem foldSel_lt_of_ne (d : Nat → ℝ) (l : List Nat) (acc : ℝ × Nat)
    (h : (l.foldl (selStep d) acc).2 ≠ acc.2) :
    acc.1 < (l.foldl (selStep d) acc).1 := by
  induction l generalizing acc with
  | nil => exact absurd rfl h
  | cons x xs ih =>
    simp only [List.foldl_cons] at h ⊢
    by_cases hx : acc.1 < d x
    · have h1 : selStep d acc x = (d x, x) := by rw [selStep, if_pos hx]
      rw [h1] at h ⊢
      exact lt_of_lt_of_le hx (foldSel_fst_mono d xs (d x, x))
    · have h1 : selStep d acc x = acc := by rw [selStep, if_neg hx]
      rw [h1] at h ⊢
      exact ih acc h

theorem foldSel_earliest (d : Nat → ℝ) (l : List Nat) (acc : ℝ × Nat)
    (hl : l.Pairwise (· < ·)) (hacc : ∀ j ∈ l, acc.2 < j) :
    ∀ i ∈ l, i < (l.foldl (selStep d) acc).2 →
      d i < (l.foldl (selStep d) acc).1 := by
  induction l generalizing acc with
  | nil => intro i h; exact absurd h (List.not_mem_nil i)
  | cons x xs ih =>
    obtain ⟨hx_lt, hxs⟩ := List.pairwise_cons.mp hl
    intro i hi hlt
    simp only [List.foldl_cons] at hlt ⊢
    by_cases hx : acc.1 < d x
    · have h1 : selStep d acc x = (d x, x) := by rw [selStep, if_pos hx]
      rw [h1] at hlt ⊢
      rcases List.mem_cons.mp hi with h | h
      · subst h
        have hne : (xs.foldl (selStep d) (d i, i)).2 ≠ (d i, i).2 := by
          intro he
          rw [he] at hlt
          exact absurd hlt (lt_irrefl _)
        exact foldSel_lt_of_ne d xs (d i, i) hne
      · exact ih (d x, x) hxs (fun j hj => hx_lt j hj) i h hlt
    · have h1 : selStep d acc x = acc := by rw [selStep, if_neg hx]
      rw [h1] at hlt ⊢
      rcases List.mem_cons.mp hi with h | h
      · subst h
        by_cases he : (xs.foldl (selStep d) acc).2 = acc.2
        · rw [he] at hlt
          have := hacc i (List.mem_cons_self i xs)
          exact absurd hlt (by omega)
        · exact lt_of_le_of_lt (not_lt.mp hx) (foldSel_lt_of_ne d xs acc he)
      · exact ih acc hxs (fun j hj => hacc j (List.mem_cons_of_mem _ hj)) i h
          hlt

theorem mem_interior_list {n i : Nat} :
    i ∈ (List.range n).map (fun j => j + 1) ↔ 1 ≤ i ∧ i ≤ n := by
  simp only [List.mem_map, List.mem_range]
  constructor
  · rintro ⟨j, hj, rfl⟩
    omega
  · intro h
    exact ⟨i - 1, by omega, by omega⟩

theorem interior_list_pairwise (n : Nat) :
    ((List.range n).map (fun j => j + 1)).Pairwise (· < ·) := by
  rw [List.pairwise_map]
  exact (List.pairwise_lt_range n).imp (by omega)

theorem dist3_nonneg (a b : P3) : 0 ≤ dist3 a b := by
  unfold dist3 vecLength
  exact Real.sqrt_nonneg _

theorem interiorScore_nonneg (pts : List P3) (i : Nat) :
    0 ≤ interiorScore pts i := by
  unfold interiorScore
  exact le_min (dist3_nonneg _ _) (dist3_nonneg _ _)

theorem endLen1_nonneg (p : Polyline) : 0 ≤ endLen1 p := by
  unfold endLen1
  exact dist3_nonneg _ _

theorem endLen2_nonneg (p : Polyline) : 0 ≤ endLen2 p := by
  unfold endLen2
  exact dist3_nonneg _ _

theorem scoreAt_zero (p : Polyline) : scoreAt p 0 = endLen1 p := by
  rw [scoreAt, if_pos rfl]

theorem scoreAt_last (p : Polyline) (h3 : 3 ≤ p.size) :
    scoreAt p (p.size - 1) = endLen2 p := by
  rw [scoreAt, if_neg (by omega), if_pos rfl]

theorem scoreAt_interior (p : Polyline) (i : Nat) (h1 : 1 ≤ i)
    (h2 : i ≤ p.size - 2) (h3 : 3 ≤ p.size) :
    scoreAt p i = interiorScore p.points i := by
  rw [scoreAt, if_neg (by omega), if_neg (by omega)]
  rfl

theorem chosen_spec (p : Polyline) (h3 : 3 ≤ p.size) :
    chosenIndex p < p.size ∧
    scoreAt p (chosenIndex p) = chosenDist p ∧
    (∀ i, i < p.size → scoreAt p i ≤ chosenDist p) ∧
    (∀ i, 1 ≤ i → i ≤ p.size - 2 → i < chosenIndex p →
      scoreAt p i < chosenDist p) ∧
    (chosenIndex p = 0 → scoreAt p 0 = 0 ∨
      ∀ i, 1 ≤ i → i ≤ p.size - 2 → scoreAt p i < scoreAt p 0) ∧
    (chosenIndex p = p.size - 1 →
      ∀ i, i < p.size - 1 → scoreAt p i < scoreAt p (p.size - 1)) := by
  have hA : ∀ i, 1 ≤ i → i ≤ p.size - 2 →
      interiorScore p.points i ≤ (interiorScan p).1 := by
    intro i u v
    exact foldSel_le (interiorScore p.points) _ (0, 0) i
      (mem_interior_list.mpr ⟨u, v⟩)
  have hB : interiorScan p = ((0 : ℝ), (0 : Nat)) ∨
      (1 ≤ (interiorScan p).2 ∧ (interiorScan p).2 ≤ p.size - 2 ∧
        (interiorScan p).1 = interiorScore p.points (interiorScan p).2) := by
    rcases foldSel_mem (interiorScore p.points)
        ((List.range (p.size - 2)).map (fun j => j + 1)) (0, 0) with h | h
    · left; exact h
    · right
      obtain ⟨hm, he⟩ := h
      obtain ⟨u, v⟩ := mem_interior_list.mp hm
      exact ⟨u, v, he⟩
  have hC : ∀ i, 1 ≤ i → i ≤ p.size - 2 → i < (interiorScan p).2 →
      interiorScore p.points i < (interiorScan p).1 := by
    intro i u v hlt'
    exact foldSel_earliest (interiorScore p.points) _ (0, 0)
      (interior_list_pairwise _)
      (fun j hj => by
        have := (mem_interior_list.mp hj).1
        show (0 : Nat) < j
        omega)
      i (mem_interior_list.mpr ⟨u, v⟩) hlt'
  have hD : (0 : ℝ) ≤ (interiorScan p).1 :=
    foldSel_fst_mono (interiorScore p.points) _ (0, 0)
  have hsc0 : scoreAt p 0 = endLen1 p := scoreAt_zero p
  have hscL : scoreAt p (p.size - 1) = endLen2 p := scoreAt_last p h3
  have hscI : ∀ i, 1 ≤ i → i ≤ p.size - 2 →
      scoreAt p i = interiorScore p.points i :=
    fun i u v => scoreAt_interior p i u v h3
  have hda : distAfter1 p
      = if (interiorScan p).1 < endLen1 p then endLen1 p
        else (interiorScan p).1 := rfl
  have hia : idxAfter1 p
      = if (interiorScan p).1 < endLen1 p then 0 else (interiorScan p).2 := rfl
  have hci : chosenIndex p
      = if distAfter1 p < endLen2 p then p.size - 1 else idxAfter1 p := rfl
  have hcd : chosenDist p
      = if distAfter1 p < endLen2 p then endLen2 p else distAfter1 p := rfl
  have h1le : endLen1 p ≤ distAfter1 p := by
    rw [hda]; split
    · exact le_refl _
    · exact not_lt.mp (by assumption)
  have hrle : (interiorScan p).1 ≤ distAfter1 p := by
    rw [hda]; split
    · exact le_of_lt (by assumption)
    · exact le_refl _
  have hdacd : distAfter1 p ≤ chosenDist p := by
    rw [hcd]; split
    · exact le_of_lt (by assumption)
    · exact le_refl _
  have h2le : endLen2 p ≤ chosenDist p := by
    rw [hcd]; split
    · exact le_refl _
    · exact not_lt.mp (by assumption)
  have hmax : ∀ i, i < p.size → scoreAt p i ≤ chosenDist p := by
    intro i hi
    by_cases hi0 : i = 0
    · subst hi0
      rw [hsc0]
      exact le_trans h1le hdacd
    · by_cases hiL : i = p.size - 1
      · subst hiL
        rw [hscL]
        exact h2le
      · have hint : 1 ≤ i ∧ i ≤ p.size - 2 := by omega
        rw [hscI i hint.1 hint.2]
        exact le_trans (hA i hint.1 hint.2) (le_trans hrle hdacd)
  have hlt : chosenIndex p < p.size := by
    rw [hci]
    split
    · omega
    · rw [hia]
      split
      · omega
      · rcases hB with h | h
        · have h2 : (interiorScan p).2 = 0 := by rw [h]
          rw [h2]
          omega
        · have := h.2.1
          omega
  have hsc : scoreAt p (chosenIndex p) = chosenDist p := by
    rw [hci, hcd]
    by_cases hb : distAfter1 p < endLen2 p
    · rw [if_pos hb, if_pos hb, hscL]
    · rw [if_neg hb, if_neg hb, hia, hda]
      by_cases ha : (interiorScan p).1 < endLen1 p
      · rw [if_pos ha, if_pos ha, hsc0]
      · rw [if_neg ha, if_neg ha]
        rcases hB with h | h
        · have hF2 : (interiorScan p).2 = 0 := by rw [h]
          have hF1 : (interiorScan p).1 = 0 := by rw [h]
          rw [hF2, hF1, hsc0]
          have hle' : endLen1 p ≤ 0 := by
            rw [← hF1]
            exact not_lt.mp ha
          have hge := endLen1_nonneg p
          linarith
        · obtain ⟨hm1, hm2, heq⟩ := h
          rw [hscI _ hm1 hm2, ← heq]
  have hstr : ∀ i, 1 ≤ i → i ≤ p.size - 2 → i < chosenIndex p →
      scoreAt p i < chosenDist p := by
    intro i u v hlt'
    rw [hci] at hlt'
    rw [hcd]
    by_cases hb : distAfter1 p < endLen2 p
    · rw [if_pos hb]
      rw [hscI i u v]
      exact lt_of_le_of_lt (le_trans (hA i u v) hrle) hb
    · rw [if_neg hb]
      rw [if_neg hb, hia] at hlt'
      rw [hda]
      by_cases ha : (interiorScan p).1 < endLen1 p
      · rw [if_pos ha] at hlt'
        exact absurd hlt' (by omega)
      · rw [if_neg ha] at hlt'
        rw [if_neg ha]
        rw [hscI i u v]
        exact hC i u v hlt'
  have hzero : chosenIndex p = 0 → scoreAt p 0 = 0 ∨
      ∀ i, 1 ≤ i → i ≤ p.size - 2 → scoreAt p i < scoreAt p 0 := by
    intro h0
    rw [hci] at h0
    by_cases hb : distAfter1 p < endLen2 p
    · rw [if_pos hb] at h0
      exact absurd h0 (by omega)
    · rw [if_neg hb, hia] at h0
      by_cases ha : (interiorScan p).1 < endLen1 p
      · right
        intro i u v
        rw [hscI i u v, hsc0]
        exact lt_of_le_of_lt (hA i u v) ha
      · rw [if_neg ha] at h0
        rcases hB with h | h
        · left
          have hF1 : (interiorScan p).1 = 0 := by rw [h]
          rw [hsc0]
          have hle' : endLen1 p ≤ 0 := by
            rw [← hF1]
            exact not_lt.mp ha
          have hge := endLen1_nonneg p
          linarith
        · have := h.1
          omega
  have hlast : chosenIndex p = p.size - 1 →
      ∀ i, i < p.size - 1 → scoreAt p i < scoreAt p (p.size - 1) := by
    intro h0 i hi
    rw [hscL]
    rw [hci] at h0
    by_cases hb : distAfter1 p < endLen2 p
    · by_cases hi0 : i = 0
      · subst hi0
        rw [hsc0]
        exact lt_of_le_of_lt h1le hb
      · have hint : 1 ≤ i ∧ i ≤ p.size - 2 := by omega
        rw [hscI i hint.1 hint.2]
        exact lt_of_le_of_lt (le_trans (hA i hint.1 hint.2) hrle) hb
    · rw [if_neg hb, hia] at h0
      by_cases ha : (interiorScan p).1 < endLen1 p
      · rw [if_pos ha] at h0
        exact absurd h0 (by omega)
      · rw [if_neg ha] at h0
        rcases hB with h | h
        · have hF2 : (interiorScan p).2 = 0 := by rw [h]
          rw [hF2] at h0
          exact absurd h0 (by omega)
        · have := h.2.1
          omega
  exact ⟨hlt, hsc, hmax, hstr, hzero, hlast⟩

theorem eraseAt_spec (p : Polyline) (ix : Nat) (hp : Wf p)
    (hix : ix < p.size) :
    (eraseAt p ix).size = p.size - 1 ∧
    livePts (eraseAt p ix) = (livePts p).eraseIdx ix ∧
    liveNms (eraseAt p ix) = (liveNms p).eraseIdx ix ∧
    Wf (eraseAt p ix) := by
  obtain ⟨h1, h2, h3'⟩ := hp
  have hsrc : ((p.points.drop (ix + 1)).take (p.size - (ix + 1))).length
      = p.size - (ix + 1) := by
    rw [List.length_take, List.length_drop]
    omega
  have hsrcn : ((p.names.drop (ix + 1)).take (p.size - (ix + 1))).length
      = p.size - (ix + 1) := by
    rw [List.length_take, List.length_drop]
    omega
  refine ⟨rfl, ?_, ?_, ?_, ?_, ?_⟩
  · show (listWrite p.points ix _).take (p.size - 1) = _
    have hamt : p.size - 1
        = ix + ((p.points.drop (ix + 1)).take (p.size - (ix + 1))).length := by
      rw [hsrc]; omega
    rw [hamt, listWrite_take_add (by omega)]
    rw [livePts, List.eraseIdx_eq_take_drop_succ, List.take_take,
      Nat.min_eq_left (by omega), List.drop_take]
  · show (listWrite p.names ix _).take (p.size - 1) = _
    have hamt : p.size - 1
        = ix + ((p.names.drop (ix + 1)).take (p.size - (ix + 1))).length := by
      rw [hsrcn]; omega
    rw [hamt, listWrite_take_add (by omega)]
    rw [liveNms, List.eraseIdx_eq_take_drop_succ, List.take_take,
      Nat.min_eq_left (by omega), List.drop_take]
  · show (listWrite p.points ix _).length = p.capacity
    rw [listWrite_length (by rw [hsrc]; omega), h1]
  · show (listWrite p.names ix _).length = p.capacity
    rw [listWrite_length (by rw [hsrcn]; omega), h2]
  · show p.size - 1 ≤ p.capacity
    omega

/-- Claim C2 (amended): `remove_most_isolated_point` is a no-op for at most
two points; otherwise it removes exactly one point, at an index attaining
the maximal isolation score, shifting later points and labels left by one.
The tie rule, however, is not uniformly earliest-index: among interior
points the earliest strict maximiser wins, and the last point is removed
only when its score strictly exceeds every other, but the first point is
removed only when its score strictly exceeds every interior score (or in
the degenerate case of score zero) — an interior point that merely ties
the first point is removed instead of it. -/
theorem remove_most_isolated_point_spec (p : Polyline) (hwf : Wf p) :
    (p.size ≤ 2 → removeMostIsolatedPoint p = p) ∧
    (3 ≤ p.size →
      chosenIndex p < p.size ∧
      (removeMostIsolatedPoint p).size = p.size - 1 ∧
      livePts (removeMostIsolatedPoint p)
        = (livePts p).eraseIdx (chosenIndex p) ∧
      liveNms (removeMostIsolatedPoint p)
        = (liveNms p).eraseIdx (chosenIndex p) ∧
      (∀ i, i < p.size → scoreAt p i ≤ scoreAt p (chosenIndex p)) ∧
      (∀ i, 1 ≤ i → i ≤ p.size - 2 → i < chosenIndex p →
        scoreAt p i < scoreAt p (chosenIndex p)) ∧
      (chosenIndex p = 0 → scoreAt p 0 = 0 ∨
        ∀ i, 1 ≤ i → i ≤ p.size - 2 → scoreAt p i < scoreAt p 0) ∧
      (chosenIndex p = p.size - 1 →
        ∀ i, i < p.size - 1 → scoreAt p i < scoreAt p (p.size - 1))) := by
  constructor
  · intro h2
    rw [removeMostIsolatedPoint, if_pos h2]
  · intro h3
    obtain ⟨hlt, hsc, hmax, hstr, hzero, hlast⟩ := chosen_spec p h3
    obtain ⟨hs, hl, hn, _⟩ := eraseAt_spec p (chosenIndex p) hwf hlt
    rw [removeMostIsolatedPoint, if_neg (by omega)]
    refine ⟨hlt, hs, hl, hn, ?_, ?_, hzero, hlast⟩
    · intro i hi
      rw [hsc]
      exact hmax i hi
    · intro i u v hlt'
      rw [hsc]
      exact hstr i u v hlt'

/-- Claim C2 witness: the amended removal theorem at a concrete three-point
polyline. -/
theorem remove_most_isolated_point_spec_witness :
    Wf pEx ∧
      ((pEx.size ≤ 2 → removeMostIsolatedPoint pEx = pEx) ∧
       (3 ≤ pEx.size →
         chosenIndex pEx < pEx.size ∧
         (removeMostIsolatedPoint pEx).size = pEx.size - 1 ∧
         livePts (removeMostIsolatedPoint pEx)
           = (livePts pEx).eraseIdx (chosenIndex pEx) ∧
         liveNms (removeMostIsolatedPoint pEx)
           = (liveNms pEx).eraseIdx (chosenIndex pEx) ∧
         (∀ i, i < pEx.size → scoreAt pEx i ≤ scoreAt pEx (chosenIndex pEx)) ∧
         (∀ i, 1 ≤ i → i ≤ pEx.size - 2 → i < chosenIndex pEx →
           scoreAt pEx i < scoreAt pEx (chosenIndex pEx)) ∧
         (chosenIndex pEx = 0 → scoreAt pEx 0 = 0 ∨
           ∀ i, 1 ≤ i → i ≤ pEx.size - 2 → scoreAt pEx i < scoreAt pEx 0) ∧
         (chosenIndex pEx = pEx.size - 1 →
           ∀ i, i < pEx.size - 1 →
             scoreAt pEx i < scoreAt pEx (pEx.size - 1)))) :=
  ⟨⟨by decide, by decide, by decide⟩,
    remove_most_isolated_point_spec pEx ⟨by decide, by decide, by decide⟩⟩

theorem dist3_eval (x1 y1 z1 x2 y2 z2 : ℝ) :
    dist3 ⟨[x1, y1, z1], rfl⟩ ⟨[x2, y2, z2], rfl⟩
      = Real.sqrt ((x1 - x2) * (x1 - x2) + (y1 - y2) * (y1 - y2)
          + (z1 - z2) * (z1 - z2)) := by
  unfold dist3 vecLength vecOfPoints matSub matMul transposeCore Mat.el
  simp [List.range_succ, Finset.sum_range_succ]

theorem dist3_AB : dist3 ptA ptB = 1 := by
  have h := dist3_eval 0 0 0 1 0 0
  norm_num at h
  exact h

theorem dist3_BC : dist3 ptB ptC = 1 := by
  have h := dist3_eval 1 0 0 2 0 0
  norm_num at h
  exact h

theorem interiorScore_pEx : interiorScore pEx.points 1 = 1 := by
  unfold interiorScore
  rw [show pget pEx.points (1 - 1) = ptA from rfl,
    show pget pEx.points 1 = ptB from rfl,
    show pget pEx.points (1 + 1) = ptC from rfl,
    dist3_AB, dist3_BC]
  exact min_self 1

theorem interiorScan_pEx : interiorScan pEx = (1, 1) := by
  show ((List.range (pEx.size - 2)).map (fun j => j + 1)).foldl
    (isoStep pEx.points) (0, 0) = (1, 1)
  rw [show pEx.size - 2 = 1 from rfl, show List.range 1 = [0] from rfl]
  simp only [List.map_cons, List.map_nil, List.foldl_cons, List.foldl_nil]
  show selStep (interiorScore pEx.points) (0, 0) (0 + 1) = (1, 1)
  rw [show (0 : Nat) + 1 = 1 from rfl, selStep, interiorScore_pEx]
  norm_num

theorem endLen1_pEx : endLen1 pEx = 1 := by
  unfold endLen1
  rw [show pget pEx.points 0 = ptA from rfl,
    show pget pEx.points 1 = ptB from rfl]
  exact dist3_AB

theorem endLen2_pEx : endLen2 pEx = 1 := by
  unfold endLen2
  rw [show pget pEx.points (pEx.size - 2) = ptB from rfl,
    show pget pEx.points (pEx.size - 1) = ptC from rfl]
  exact dist3_BC

theorem chosenIndex_pEx : chosenIndex pEx = 1 := by
  have hda : distAfter1 pEx = 1 := by
    unfold distAfter1
    rw [interiorScan_pEx, endLen1_pEx]
    norm_num
  unfold chosenIndex
  rw [hda, endLen2_pEx, if_neg (by norm_num)]
  unfold idxAfter1
  rw [interiorScan_pEx, endLen1_pEx]
  norm_num

theorem ptA_ne_ptB : ptA ≠ ptB := by
  intro h
  have h2 := congrArg (fun m : P3 => m.el 0) h
  norm_num [Mat.el, ptA, ptB] at h2

/-- Claim C2 counterexample: for the equally spaced collinear points
(0,0,0), (1,0,0), (2,0,0) the three isolation scores all tie (each is 1),
so the earliest point attaining the maximum is index 0; yet the code
removes index 1 — the endpoint comparison `len1 > dist` is strict, so on a
tie the interior candidate beats the earlier endpoint.  Hence the result is
not the removal of the earliest maximiser, refuting the claimed tie rule. -/
theorem remove_most_isolated_tie_cex :
    scoreAt pEx 0 = scoreAt pEx 1 ∧
    scoreAt pEx 2 ≤ scoreAt pEx 0 ∧
    chosenIndex pEx = 1 ∧
    livePts (removeMostIsolatedPoint pEx) = [ptA, ptC] ∧
    (livePts pEx).eraseIdx 0 = [ptB, ptC] ∧
    livePts (removeMostIsolatedPoint pEx) ≠ (livePts pEx).eraseIdx 0 := by
  have hs0 : scoreAt pEx 0 = 1 := by rw [scoreAt_zero, endLen1_pEx]
  have hs1 : scoreAt pEx 1 = 1 := by
    rw [scoreAt_interior pEx 1 (by decide) (by decide) (by decide)]
    exact interiorScore_pEx
  have hs2 : scoreAt pEx 2 = 1 := by
    rw [show (2 : Nat) = pEx.size - 1 from rfl, scoreAt_last pEx (by decide),
      endLen2_pEx]
  have hrm : removeMostIsolatedPoint pEx = eraseAt pEx (chosenIndex pEx) := by
    unfold removeMostIsolatedPoint
    rw [if_neg (by decide)]
  have hres : livePts (removeMostIsolatedPoint pEx) = [ptA, ptC] := by
    rw [hrm, chosenIndex_pEx]
    rfl
  refine ⟨by rw [hs0, hs1], by rw [hs2, hs0], chosenIndex_pEx, hres, rfl, ?_⟩
  rw [hres]
  intro h
  have h1 : ptA = ptB := by
    have := List.head_eq_of_cons_eq h
    exact this
  exact ptA_ne_ptB h1

theorem addPoint_wf (p : Polyline) (pt : P3) (c : Char) (hp : Wf p) :
    Wf (addPoint p pt c) := by
  unfold addPoint
  have hfacts :
      Wf (if p.size = p.capacity then reallocate p (p.capacity + 5) else p) ∧
      (if p.size = p.capacity then reallocate p (p.capacity + 5) else p).size
        < (if p.size = p.capacity then
            reallocate p (p.capacity + 5) else p).capacity := by
    by_cases hg : p.size = p.capacity
    · rw [if_pos hg]
      obtain ⟨hw, hsz, _, _, hnc, _⟩ := reallocate_spec p (p.capacity + 5) hp
        (by obtain ⟨_, _, h⟩ := hp; omega)
      refine ⟨hw, ?_⟩
      rw [hsz, hnc (by omega)]
      obtain ⟨_, _, h⟩ := hp
      omega
    · rw [if_neg hg]
      obtain ⟨h1, h2, h3⟩ := hp
      exact ⟨⟨h1, h2, h3⟩, by omega⟩
  obtain ⟨⟨h1, h2, h3⟩, hlt⟩ := hfacts
  unfold pushBack
  refine ⟨?_, ?_, ?_⟩
  · show (listWrite _ _ [pt]).length = _
    rw [listWrite_length (by
      simp only [List.length_cons, List.length_nil]
      omega)]
    exact h1
  · show (listWrite _ _ [c]).length = _
    rw [listWrite_length (by
      simp only [List.length_cons, List.length_nil]
      omega)]
    exact h2
  · exact Nat.succ_le_of_lt hlt

theorem mapFront_wf (p : Polyline) (f : P3 → P3) (hp : Wf p) :
    Wf { p with points := listWrite p.points 0 ((livePts p).map f) } := by
  obtain ⟨h1, h2, h3⟩ := hp
  refine ⟨?_, h2, h3⟩
  show (listWrite p.points 0 ((livePts p).map f)).length = p.capacity
  rw [listWrite_length (by
    rw [List.length_map, livePts_length (by omega)]
    omega), h1]

theorem remove_wf (p : Polyline) (hp : Wf p) :
    Wf (removeMostIsolatedPoint p) := by
  by_cases h2 : p.size ≤ 2
  · unfold removeMostIsolatedPoint
    rw [if_pos h2]
    exact hp
  · unfold removeMostIsolatedPoint
    rw [if_neg h2]
    obtain ⟨hlt, _⟩ := chosen_spec p (by omega)
    exact (eraseAt_spec p _ hp hlt).2.2.2

theorem polyDefault_wf : Wf polyDefault := ⟨rfl, rfl, Nat.le_refl 0⟩

theorem copyCtor_wf (q : Polyline) (hq : Wf q) : Wf (copyCtor q) := by
  unfold copyCtor
  by_cases hz : 0 < q.size
  · rw [if_pos hz]
    obtain ⟨hw, hsz, _, _, hnc, _⟩ :=
      reallocate_spec polyDefault q.size polyDefault_wf (by
        show (0 : Nat) ≤ q.size
        omega)
    obtain ⟨h1, h2, _⟩ := hw
    have hcap : (reallocate polyDefault q.size).capacity = q.size :=
      hnc (by show (0 : Nat) ≠ q.size; omega)
    obtain ⟨hq1, hq2, hq3⟩ := hq
    have hlq : (livePts q).length = q.size := livePts_length (by omega)
    have hlqn : (liveNms q).length = q.size := liveNms_length (by omega)
    refine ⟨?_, ?_, ?_⟩
    · show (listWrite _ 0 (livePts q)).length = _
      rw [listWrite_length (by rw [hlq, h1, hcap]; omega)]
      exact h1
    · show (listWrite _ 0 (liveNms q)).length = _
      rw [listWrite_length (by rw [hlqn, h2, hcap]; omega)]
      exact h2
    · show q.size ≤ (reallocate polyDefault q.size).capacity
      rw [hcap]
  · rw [if_neg hz]
    exact polyDefault_wf

/-- Claim C4: every Polyline operation — `add_point`, both `merge_line`
overloads (both resulting objects), `remove_most_isolated_point`, `shift`,
`rotate`, copy and move construction and assignment — preserves the
invariant that the two backing stores have equal length (one label slot per
point slot, never out of sync) and that `size ≤ capacity`. -/
theorem polyline_invariant_preserved (p q : Polyline) (pt : P3) (c : Char)
    (v axis : Mat ℝ 1 3) (rad : ℝ) (hp : Wf p) (hq : Wf q) :
    Wf (addPoint p pt c) ∧
    Wf (mergeCopy p q) ∧
    Wf (mergeMove p q).1 ∧ Wf (mergeMove p q).2 ∧
    Wf (removeMostIsolatedPoint p) ∧
    Wf (shiftLine p v) ∧
    Wf (rotateLine p axis rad) ∧
    Wf (copyCtor q) ∧
    Wf (moveCtor q).1 ∧ Wf (moveCtor q).2 ∧
    Wf (copyAssign p q) ∧
    Wf (moveAssign p q).1 ∧ Wf (moveAssign p q).2 :=
  ⟨addPoint_wf p pt c hp,
   (mergeCopy_spec p q hp hq).2.2.2,
   (mergeMove_spec p q hp hq).2.2.2.1,
   (mergeMove_spec p q hp hq).2.2.2.2,
   remove_wf p hp,
   mapFront_wf p _ hp,
   mapFront_wf p _ hp,
   copyCtor_wf q hq,
   hq, polyDefault_wf,
   copyCtor_wf q hq,
   hq, hp⟩

/-- Claim C4 witness: the invariant-preservation theorem at concrete
polylines and arguments. -/
theorem polyline_invariant_preserved_witness :
    Wf pEx ∧ Wf qEx ∧
      (Wf (addPoint pEx ptA chA) ∧
       Wf (mergeCopy pEx qEx) ∧
       Wf (mergeMove pEx qEx).1 ∧ Wf (mergeMove pEx qEx).2 ∧
       Wf (removeMostIsolatedPoint pEx) ∧
       Wf (shiftLine pEx ptB) ∧
       Wf (rotateLine pEx ptB 0) ∧
       Wf (copyCtor qEx) ∧
       Wf (moveCtor qEx).1 ∧ Wf (moveCtor qEx).2 ∧
       Wf (copyAssign pEx qEx) ∧
       Wf (moveAssign pEx qEx).1 ∧ Wf (moveAssign pEx qEx).2) :=
  ⟨⟨by decide, by decide, by decide⟩, ⟨by decide, by decide, by decide⟩,
    polyline_invariant_preserved pEx qEx ptA chA ptB ptB 0
      ⟨by decide, by decide, by decide⟩ ⟨by decide, by decide, by decide⟩⟩

theorem vecLengthE_ok {n : Nat} (v : Mat ℝ 1 n) (hn : 0 < n) :
    vecLengthE v = Except.ok (vecLength v) := by
  have ht : transposedE v = Except.ok (transposeCore v) := by
    unfold transposedE
    rw [if_neg (by omega)]
  unfold vecLengthE
  rw [ht]
  show ((matMul v (transposeCore v)).atE 0 0).map Real.sqrt
    = Except.ok (vecLength v)
  unfold Mat.atE
  rw [if_neg (by omega)]
  rfl

/-- Claim C9 (amended): for every vector of positive dimension,
`normalize()` signals no error (the internal `length()` computation
succeeds); on a vector of length exactly zero it returns the all-zero
vector, and otherwise it returns the vector whose every component is the
original component divided by the length.  The restriction to positive
dimension is forced: the constructible 0-dimensional vector also has
length exactly zero, yet its `normalize()` signals `OutOfRange` (see the
counterexample below). -/
theorem normalize_spec {n : Nat} (v : Mat ℝ 1 n) (hn : 0 < n) :
    vecNormalizeE v = Except.ok (vecNormalize v) ∧
    (vecLength v = 0 → vecNormalize v = matZero ℝ 1 n) ∧
    (vecLength v ≠ 0 → ∀ k, k < n →
      (vecNormalize v).el k = v.el k / vecLength v) := by
  refine ⟨?_, ?_, ?_⟩
  · unfold vecNormalizeE
    rw [vecLengthE_ok v hn]
    rfl
  · intro h0
    unfold vecNormalize
    rw [if_pos h0]
  · intro h0 k hk
    unfold vecNormalize
    rw [if_neg h0]
    have hk1 : k < v.data.length := by rw [v.hlen]; omega
    have hk2 : k < (v.data.map (fun x => x / vecLength v)).length := by
      rw [List.length_map]
      exact hk1
    show (v.data.map (fun x => x / vecLength v)).getD k 0
      = v.data.getD k 0 / vecLength v
    rw [List.getD_eq_getElem _ _ hk2, List.getD_eq_getElem _ _ hk1,
      List.getElem_map]

/-- Claim C9 witness: the normalize theorem at a concrete 3-dimensional
vector. -/
theorem normalize_spec_witness :
    (0 : Nat) < 3 ∧
      (vecNormalizeE ptB = Except.ok (vecNormalize ptB) ∧
       (vecLength ptB = 0 → vecNormalize ptB = matZero ℝ 1 3) ∧
       (vecLength ptB ≠ 0 → ∀ k, k < 3 →
         (vecNormalize ptB).el k = ptB.el k / vecLength ptB)) :=
  ⟨by decide, normalize_spec ptB (by decide)⟩

/-- Claim C9 counterexample: the 0-dimensional vector is constructible and
its length is exactly zero (the dot product is the empty sum), yet
`normalize()` signals an error instead of returning the all-zero vector:
its internal `length()` calls `transposed()` on a 1×0 matrix, which throws
`std::out_of_range` from the column-index bound check.  So the claim's
"signals no error" does not hold for every zero-length vector. -/
theorem normalize_zero_dim_cex :
    vecLength vDeg = 0 ∧
    vecLengthE vDeg = Except.error GeomErr.outOfRange ∧
    vecNormalizeE vDeg = Except.error GeomErr.outOfRange ∧
    vecNormalizeE vDeg ≠ Except.ok (matZero ℝ 1 0) := by
  refine ⟨?_, rfl, rfl, ?_⟩
  · unfold vecLength matMul transposeCore Mat.el
    simp [List.range_succ, Real.sqrt_zero]
  · intro h
    rw [show vecNormalizeE vDeg = Except.error GeomErr.outOfRange from rfl]
      at h
    exact absurd h (by simp)
